import Mathlib

/- Shallow embedding of `boolean_retrieval_model.py`: an offline boolean /
   proximity text-retrieval engine (class InformationRetrievalSystem).
   The model covers ASCII text; the stemmer (nltk PorterStemmer) is an external
   capability and is modelled as an arbitrary function `stem : String → String`.
   Python dicts are modelled as insertion-ordered association lists, Python sets
   of ints as `Finset Nat`. -/

/- Python whitespace (`\s` on ASCII, also the `str.split()` / `str.strip()`
   separator set): space, tab, newline, carriage return, vertical tab, form feed. -/
def isSpacePy (c : Char) : Bool :=
  (c == ' ') || (c == '\t') || (c == '\n') || (c == '\r') || (c == '\x0b') || (c == '\x0c')

/- Python `str.lower()` restricted to ASCII letters. -/
def lowerCharPy (c : Char) : Char :=
  if 'A' ≤ c ∧ c ≤ 'Z' then Char.ofNat (c.toNat + 32) else c

def isAsciiAlpha (c : Char) : Bool :=
  ('a' ≤ c ∧ c ≤ 'z') || ('A' ≤ c ∧ c ≤ 'Z')

def isDigitPy (c : Char) : Bool :=
  '0' ≤ c ∧ c ≤ '9'

/- ASCII fragment of Python's regex word class `\w`. -/
def isWordCharPy (c : Char) : Bool :=
  isAsciiAlpha c || isDigitPy c || (c == '_')

/- Split a character list into its maximal runs of word characters
   (the accumulator holds the current run, reversed). -/
def wordRunsAux : List Char → List Char → List (List Char)
  | acc, [] => if acc.isEmpty then [] else [acc.reverse]
  | acc, c :: rest =>
    if isWordCharPy c then wordRunsAux (c :: acc) rest
    else if acc.isEmpty then wordRunsAux [] rest
    else acc.reverse :: wordRunsAux [] rest

def wordRuns (l : List Char) : List (List Char) := wordRunsAux [] l

/- `re.findall(r'\b[a-zA-Z]+\b', text.lower())`: a maximal word-character run of
   the lower-cased text is a token exactly when it consists of letters only
   (a run containing a digit or underscore has no internal word boundary, so no
   part of it can match `\b[a-zA-Z]+\b`). -/
def tokenizeText (text : String) : List String :=
  ((wordRuns (text.data.map lowerCharPy)).filter (fun r => r.all isAsciiAlpha)).map
    (fun r => String.mk r)

/- `str.split()` with no separator: maximal non-whitespace runs. -/
def pySplitWsAux : List Char → List Char → List (List Char)
  | acc, [] => if acc.isEmpty then [] else [acc.reverse]
  | acc, c :: rest =>
    if isSpacePy c then
      (if acc.isEmpty then pySplitWsAux [] rest else acc.reverse :: pySplitWsAux [] rest)
    else pySplitWsAux (c :: acc) rest

def pySplitWs (l : List Char) : List (List Char) := pySplitWsAux [] l

/- `str.strip()`. -/
def pyStrip (l : List Char) : List Char :=
  ((l.dropWhile isSpacePy).reverse.dropWhile isSpacePy).reverse

/- `_preprocess_text`: tokenize the lower-cased text, enumerate ALL tokens
   (`for pos, token in enumerate(tokens)`), drop stop words, stem survivors,
   keeping the raw enumeration index as the position. -/
def preprocessText (stem : String → String) (stop : List String) (text : String) :
    List (String × Nat) :=
  (tokenizeText text).enum.filterMap
    (fun p => if p.2 ∈ stop then none else some (stem p.2, p.1))

/- Spec-side variant (for claim C2 only), following the spec's words: a position
   is the 0-based sequential index among the retained (non-stop-word) tokens. -/
def preprocessTextSpec (stem : String → String) (stop : List String) (text : String) :
    List (String × Nat) :=
  (((tokenizeText text).filter (fun tok => tok ∉ stop)).enum).map
    (fun p => (stem p.2, p.1))

/- The engine's mutable index state:
   `doc_ids : {doc_id -> filename}`,
   `inverted_index : defaultdict(list), term -> [doc_ids]`,
   `positional_index : defaultdict(lambda: defaultdict(list)), term -> {doc_id -> [positions]}`.
   Dicts are insertion-ordered association lists. -/
abbrev InvIndex := List (String × List Nat)
abbrev PosInner := List (Nat × List Nat)
abbrev PosIndex := List (String × PosInner)

structure IRState where
  docMap : List (Nat × String)
  inverted : InvIndex
  positional : PosIndex
deriving DecidableEq

/- `self.inverted_index.get(term, [])` (`.get` does not vivify). -/
def invGet (inv : InvIndex) (t : String) : List Nat :=
  match inv with
  | [] => []
  | (t', l) :: rest => if t = t' then l else invGet rest t

def innerGet (m : PosInner) (d : Nat) : List Nat :=
  match m with
  | [] => []
  | (d', l) :: rest => if d = d' then l else innerGet rest d

/- The value stored at `positional_index[t][d]`, `[]` when absent. -/
def posGet (p : PosIndex) (t : String) (d : Nat) : List Nat :=
  match p with
  | [] => []
  | (t', m) :: rest => if t = t' then innerGet m d else posGet rest t d

def innerPresent (m : PosInner) (d : Nat) : Bool :=
  match m with
  | [] => false
  | (d', _) :: rest => if d = d' then true else innerPresent rest d

/- Whether the key chain `positional_index[t][d]` exists (no vivification needed). -/
def posKeyPresent (p : PosIndex) (t : String) (d : Nat) : Bool :=
  match p with
  | [] => false
  | (t', m) :: rest => if t = t' then innerPresent m d else posKeyPresent rest t d

/- `self.inverted_index[term].append(doc_id)` on a defaultdict(list):
   append to the existing entry, or create the key at the end. -/
def invAppend (inv : InvIndex) (t : String) (d : Nat) : InvIndex :=
  match inv with
  | [] => [(t, [d])]
  | (t', l) :: rest => if t = t' then (t', l ++ [d]) :: rest else (t', l) :: invAppend rest t d

def innerAppend (m : PosInner) (d : Nat) (pos : Nat) : PosInner :=
  match m with
  | [] => [(d, [pos])]
  | (d', l) :: rest => if d = d' then (d', l ++ [pos]) :: rest else (d', l) :: innerAppend rest d pos

/- `self.positional_index[term][doc_id].append(position)` on the nested defaultdict. -/
def posAppend (p : PosIndex) (t : String) (d : Nat) (pos : Nat) : PosIndex :=
  match p with
  | [] => [(t, [(d, [pos])])]
  | (t', m) :: rest =>
    if t = t' then (t', innerAppend m d pos) :: rest else (t', m) :: posAppend rest t d pos

/- `filename.endswith('.txt')`. -/
def endsTxt (fn : String) : Bool :=
  ".txt".data.reverse.isPrefixOf fn.data.reverse

/- One iteration of the `for doc_id, filename in enumerate(os.listdir(...))` loop of
   `_build_indexes`, parameterized by the preprocessing function.  A listing entry is
   `(filename, content)`; `content = none` models a document whose read raises
   (the document is recorded as failed and skipped, its enumeration index consumed). -/
def buildStep (pre : String → List (String × Nat)) (st : IRState) (i : Nat)
    (fn : String) (content : Option String) : IRState :=
  if endsTxt fn then
    match content with
    | none => st
    | some c =>
      let toks := pre c
      let st1 : IRState := { st with docMap := st.docMap ++ [(i, fn)] }
      let st2 : IRState :=
        { st1 with positional := toks.foldl (fun p pr => posAppend p pr.1 i pr.2) st1.positional }
      let terms := (toks.map Prod.fst).dedup
      { st2 with inverted := terms.foldl (fun inv t => invAppend inv t i) st2.inverted }
  else st

def buildGo (pre : String → List (String × Nat)) :
    Nat → List (String × Option String) → IRState → IRState
  | _, [], st => st
  | i, (fn, c) :: rest, st => buildGo pre (i + 1) rest (buildStep pre st i fn c)

def emptyIRState : IRState := ⟨[], [], []⟩

/- `_build_indexes` building from scratch over a directory listing.
   `terms_in_doc` is a Python set; its iteration order is modelled by `List.dedup`
   of the document's stems (the claims do not depend on dict key order). -/
def buildIndexesWith (pre : String → List (String × Nat))
    (listing : List (String × Option String)) : IRState :=
  buildGo pre 0 listing emptyIRState

def buildIndexes (stem : String → String) (stop : List String)
    (listing : List (String × Option String)) : IRState :=
  buildIndexesWith (preprocessText stem stop) listing

/- Spec-side build variant for claim C2: identical except that positions are the
   spec's retained-token positions. -/
def buildIndexesSpecC2 (stem : String → String) (stop : List String)
    (listing : List (String × Option String)) : IRState :=
  buildIndexesWith (preprocessTextSpec stem stop) listing

/- Python `sorted` on a list of ints (ascending, duplicates kept). -/
def pySorted (l : List Nat) : List Nat := l.insertionSort (· ≤ ·)

/- A Python `set` of ints is modelled as its canonical form: the ascending list
   of its distinct elements.  `pySet` is `set(lst)`. -/
def pySet (l : List Nat) : List Nat := pySorted l.dedup

/- `s1.intersection(s2)`. -/
def listInter (a b : List Nat) : List Nat := a.filter (fun x => decide (x ∈ b))

/- `s1.union(s2)`. -/
def listUnion (a b : List Nat) : List Nat := pySet (a ++ b)

/- `s1.difference(s2)`. -/
def listSdiff (a b : List Nat) : List Nat := a.filter (fun x => decide (x ∉ b))

/- `abs(p1 - p2)` for Python ints holding naturals. -/
def absDiff (a b : Nat) : Nat := if a ≤ b then b - a else a - b

/- The tail pattern `\s+(/\s*(\d+))$` of the proximity regex, with greedy runs
   (no backtracking is possible: `/` and digits are not whitespace).  Python's
   `$` (without MULTILINE) matches at the end of the string or just before a
   single trailing newline, so after the digits either nothing or exactly
   `'\n'` may remain.  Returns `k`. -/
def matchProxTail (s : List Char) : Option Nat :=
  let ws1 := s.takeWhile isSpacePy
  let r1 := s.dropWhile isSpacePy
  if ws1.isEmpty then none
  else
    match r1 with
    | '/' :: r2 =>
      let r3 := r2.dropWhile isSpacePy
      let ds := r3.takeWhile isDigitPy
      let r4 := r3.dropWhile isDigitPy
      if ds.isEmpty then none
      else if r4 = [] ∨ r4 = ['\n'] then
        some (ds.foldl (fun a c => 10 * a + (c.toNat - 48)) 0)
      else none
    | _ => none

/- `re.match(r'(.*?)\s+(/\s*(\d+))$', query)`: the lazy group 1 is the shortest
   prefix whose remainder matches the tail.  Python's `.` does not match a
   newline, so group 1 cannot extend across a `'\n'`: the scan stops (fails) at
   the first newline whose suffix does not itself match the tail (newlines
   inside the tail's `\s+`/`\s*` runs are still fine).  Returns (group 1, k). -/
def parseProxGo : List Char → List Char → Option (List Char × Nat)
  | acc, s =>
    match matchProxTail s with
    | some k => some (acc.reverse, k)
    | none =>
      match s with
      | [] => none
      | c :: rest => if c = '\n' then none else parseProxGo (c :: acc) rest

def parseProx (s : List Char) : Option (List Char × Nat) := parseProxGo [] s

/- `self.positional_index[t][d]` on the nested defaultdict: returns the stored
   list (or `[]`), vivifying the missing outer and/or inner key as a side effect. -/
def innerDD (m : PosInner) (d : Nat) : List Nat × PosInner :=
  match m with
  | [] => ([], [(d, [])])
  | (d', l) :: rest =>
    if d = d' then (l, (d', l) :: rest)
    else
      match innerDD rest d with
      | (ps, rest') => (ps, (d', l) :: rest')

def ddAccess (p : PosIndex) (t : String) (d : Nat) : List Nat × PosIndex :=
  match p with
  | [] => ([], [(t, [(d, [])])])
  | (t', m) :: rest =>
    if t = t' then
      match innerDD m d with
      | (ps, m') => (ps, (t', m') :: rest)
    else
      match ddAccess rest t d with
      | (ps, rest') => (ps, (t', m) :: rest')

/- `any(abs(pos1 - pos2) <= k for ...)`: the double for-loop with the for-else
   construct appends `doc_id` exactly once iff some pair of positions is within k. -/
def proxPairCheck (k : Nat) (ps1 ps2 : List Nat) : Bool :=
  ps1.any (fun p1 => ps2.any (fun p2 => decide (absDiff p1 p2 ≤ k)))

/- The `for doc_id in common_docs` loop of `_process_proximity_query`, threading
   the positional index through the vivifying accesses.  The iteration order of
   the Python set `common_docs` is modelled as ascending (the final result is
   sorted, and under the engine's invariant the state is untouched, so the
   order is unobservable). -/
def proxLoop (k : Nat) (t1 t2 : String) :
    List Nat × PosIndex → List Nat → List Nat × PosIndex
  | acc, [] => acc
  | acc, d :: rest =>
    let r1 := ddAccess acc.2 t1 d
    let r2 := ddAccess r1.2 t2 d
    proxLoop k t1 t2
      (if proxPairCheck k r1.1 r2.1 then (acc.1 ++ [d], r2.2) else (acc.1, r2.2)) rest

/- `_process_proximity_query`.  Returns the result list together with the
   (possibly vivified) state. -/
def processProximityQuery (stem : String → String) (st : IRState) (q : String) :
    List Nat × IRState :=
  match parseProx q.data with
  | none => ([], st)
  | some (tp, k) =>
    match pySplitWs (tp.map lowerCharPy) with
    | [w1, w2] =>
      let t1 := stem (String.mk w1)
      let t2 := stem (String.mk w2)
      let docs1 := pySet (invGet st.inverted t1)
      let docs2 := pySet (invGet st.inverted t2)
      let common := listInter docs1 docs2
      let out := proxLoop k t1 t2 ([], st.positional) common
      (pySorted out.1, { st with positional := out.2 })
    | _ => ([], st)

/- The alternation `(AND|OR|NOT)` at the head of a character list (the three
   branches start with distinct letters, so regex backtracking is vacuous). -/
def afterOp : List Char → Option (List Char × List Char)
  | 'A' :: 'N' :: 'D' :: r => some (['A', 'N', 'D'], r)
  | 'O' :: 'R' :: r => some (['O', 'R'], r)
  | 'N' :: 'O' :: 'T' :: r => some (['N', 'O', 'T'], r)
  | _ => none

/- A match of `\s+(AND|OR|NOT)\s+` anchored at the head: greedy whitespace run,
   operator, greedy whitespace run (no backtracking is possible since the
   operators start with non-whitespace).  Returns (captured operator, rest). -/
def tryMatchOp (s : List Char) : Option (List Char × List Char) :=
  let ws1 := s.takeWhile isSpacePy
  let r1 := s.dropWhile isSpacePy
  if ws1.isEmpty then none
  else
    match afterOp r1 with
    | none => none
    | some (op, r2) =>
      let ws2 := r2.takeWhile isSpacePy
      if ws2.isEmpty then none else some (op, r2.dropWhile isSpacePy)

/- `re.split(r'\s+(AND|OR|NOT)\s+', query)`: scan left to right for the leftmost
   match, emit the preceding text and the captured operator, continue after the
   match.  The fuel is the remaining length (each match consumes at least one
   character, so the zero-fuel branch is unreachable from `splitBoolOps`). -/
def splitOpsGo : Nat → List Char → List Char → List (List Char)
  | 0, acc, s => [acc.reverse ++ s]
  | fuel + 1, acc, s =>
    match tryMatchOp s with
    | some (op, after) => acc.reverse :: op :: splitOpsGo fuel [] after
    | none =>
      match s with
      | [] => [acc.reverse]
      | c :: rest => splitOpsGo fuel (c :: acc) rest

def splitBoolOps (s : List Char) : List (List Char) := splitOpsGo s.length [] s

/- The operator loop of `_process_boolean_query` (lines 209-227): walk the
   `[op, term, op, term, ...]` tail, lower-casing each term, stopping at a
   missing or empty term, and fold the set operations left to right. -/
def evalOps (inv : InvIndex) (stem : String → String) :
    List Nat → List (List Char) → List Nat
  | res, op :: t :: rest =>
    if t.isEmpty then res
    else
      let td := pySet (invGet inv (stem (String.mk (t.map lowerCharPy))))
      let res' :=
        if op = "AND".data then listInter res td
        else if op = "OR".data then listUnion res td
        else if op = "NOT".data then listSdiff res td
        else res
      evalOps inv stem res' rest
  | res, _ => res

/- `_process_boolean_query` on a bracket-free query. -/
def processBooleanFlat (inv : InvIndex) (stem : String → String) (q : String) : List Nat :=
  match splitBoolOps q.data with
  | [t] => pySorted (invGet inv (stem (String.mk (t.map lowerCharPy))))
  | t0 :: rest =>
    pySorted (evalOps inv stem (pySet (invGet inv (stem (String.mk (t0.map lowerCharPy))))) rest)
  | [] => []

/- The bracket scan of `_process_bracketed_query` (lines 239-248): push indexes
   of `(`, and the first `)` with a nonempty stack closes the innermost group. -/
def findInnerGo : Nat → List Nat → List Char → Option (Nat × Nat)
  | _, _, [] => none
  | i, stack, c :: rest =>
    if c = '(' then findInnerGo (i + 1) (i :: stack) rest
    else if c = ')' then
      match stack with
      | s :: _ => some (s, i)
      | [] => findInnerGo (i + 1) [] rest
    else findInnerGo (i + 1) stack rest

/- `str(python_list_of_ints)`, the argument of `hash` in the placeholder. -/
def pyListRepr (l : List Nat) : String :=
  "[" ++ String.intercalate ", " (l.map Nat.repr) ++ "]"

/- The re-evaluation loop of `_process_bracketed_query` (lines 275-297): like
   `evalOps` but the term is fetched un-lowered, compared against the
   placeholder (which stands for the precomputed inner result), and lower-cased
   only when stemmed. -/
def evalOpsPH (inv : InvIndex) (stem : String → String) (ph : List Char) (innerRes : List Nat) :
    List Nat → List (List Char) → List Nat
  | res, op :: t :: rest =>
    if t.isEmpty then res
    else
      let td :=
        if t = ph then pySet innerRes
        else pySet (invGet inv (stem (String.mk (t.map lowerCharPy))))
      let res' :=
        if op = "AND".data then listInter res td
        else if op = "OR".data then listUnion res td
        else if op = "NOT".data then listSdiff res td
        else res
      evalOpsPH inv stem ph innerRes res' rest
  | res, _ => res

/- Lines 265-299 of `_process_bracketed_query`: split the rewritten query and
   evaluate it flat, treating the placeholder as the precomputed set. -/
def bracketedEval (inv : InvIndex) (stem : String → String) (ph : List Char)
    (innerRes : List Nat) (newQuery : List Char) : List Nat :=
  match splitBoolOps newQuery with
  | [] => []
  | t0 :: rest =>
    let init :=
      if t0 = ph then pySet innerRes
      else pySet (invGet inv (stem (String.mk (t0.map lowerCharPy))))
    pySorted (evalOpsPH inv stem ph innerRes init rest)

/- `_process_boolean_query` / `_process_bracketed_query`, mutually recursive.
   The fuel models the possible non-termination of the pair (e.g. a query
   containing `(` but no well-formed pair recurses forever in the Python code);
   `none` is fuel exhaustion.  `hashFn` models Python's seeded `hash`. -/
mutual
def processBooleanQueryF (inv : InvIndex) (stem : String → String) (hashFn : String → Int) :
    Nat → String → Option (List Nat)
  | 0, _ => none
  | fuel + 1, q =>
    if '(' ∈ q.data then processBracketedQueryF inv stem hashFn fuel q
    else some (processBooleanFlat inv stem q)

def processBracketedQueryF (inv : InvIndex) (stem : String → String) (hashFn : String → Int) :
    Nat → String → Option (List Nat)
  | 0, _ => none
  | fuel + 1, q =>
    if '(' ∉ q.data then processBooleanQueryF inv stem hashFn fuel q
    else
      match findInnerGo 0 [] q.data with
      | none => processBooleanQueryF inv stem hashFn fuel q
      | some (s, e) =>
        let innerExpr := String.mk (pyStrip ((q.data.drop (s + 1)).take (e - (s + 1))))
        match processBooleanQueryF inv stem hashFn fuel innerExpr with
        | none => none
        | some innerRes =>
          let ph := "RESULT_".data ++ (toString (hashFn (pyListRepr innerRes))).data
          let newQuery := q.data.take s ++ ph ++ q.data.drop (e + 1)
          match processBracketedQueryF inv stem hashFn fuel (String.mk newQuery) with
          | none => none
          | some finalRes =>
            if finalRes.length = 1 ∧ "RESULT_".data.isPrefixOf (Nat.repr (finalRes.headD 0)).data
            then some innerRes
            else some (bracketedEval inv stem ph innerRes newQuery)
end

/- Substring containment, `pat in s` for Python strings. -/
def containsSub (pat : List Char) : List Char → Bool
  | [] => pat.isEmpty
  | c :: rest => pat.isPrefixOf (c :: rest) || containsSub pat rest

/- `process_query`: classify as proximity (any `/`), then boolean (the literal
   substrings `' AND '`, `' OR '`, `'NOT '`), else a simple term
   (`query.strip().lower()` stemmed and looked up).  Returns the result
   (`none` = non-termination of the bracketed evaluator) and the state. -/
def processQueryF (stem : String → String) (hashFn : String → Int) (fuel : Nat)
    (st : IRState) (q : String) : Option (List Nat) × IRState :=
  if '/' ∈ q.data then
    let pr := processProximityQuery stem st q
    (some pr.1, pr.2)
  else if containsSub " AND ".data q.data || containsSub " OR ".data q.data
      || containsSub "NOT ".data q.data then
    (processBooleanQueryF st.inverted stem hashFn fuel q, st)
  else
    (some (pySorted (invGet st.inverted (stem (String.mk ((pyStrip q.data).map lowerCharPy))))), st)

/- The boolean-routing condition of `process_query` line 181, named for claim C7. -/
def boolRouteB (q : String) : Bool :=
  containsSub " AND ".data q.data || containsSub " OR ".data q.data
    || containsSub "NOT ".data q.data

/- The simple-term branch of `process_query` (lines 185-189), named for claim C7. -/
def simpleTermEval (inv : InvIndex) (stem : String → String) (q : String) : List Nat :=
  pySorted (invGet inv (stem (String.mk ((pyStrip q.data).map lowerCharPy))))

/- Claim C7's classification predicate: the query contains `AND`, `OR` or `NOT`
   as a whitespace-delimited word. -/
def containsOpWord (q : String) : Bool :=
  decide ("AND".data ∈ pySplitWs q.data) || decide ("OR".data ∈ pySplitWs q.data)
    || decide ("NOT".data ∈ pySplitWs q.data)

/- The boolean operators, and claim C1's left-to-right specification evaluator:
   start from the postings set of the (lower-cased) stemmed first term and fold
   each `(op, term)` pair with AND = intersection, OR = union, NOT = difference,
   returning the final set sorted ascending. -/
inductive BoolOp where
  | opAnd
  | opOr
  | opNot
deriving DecidableEq

def opChars : BoolOp → List Char
  | .opAnd => "AND".data
  | .opOr => "OR".data
  | .opNot => "NOT".data

def flattenPairs (pairs : List (BoolOp × List Char)) : List (List Char) :=
  pairs.foldr (fun pr acc => opChars pr.1 :: pr.2 :: acc) []

def specStep (inv : InvIndex) (stem : String → String) (acc : List Nat)
    (pr : BoolOp × List Char) : List Nat :=
  let td := pySet (invGet inv (stem (String.mk (pr.2.map lowerCharPy))))
  match pr.1 with
  | .opAnd => listInter acc td
  | .opOr => listUnion acc td
  | .opNot => listSdiff acc td

def specLeftToRight (inv : InvIndex) (stem : String → String) (t0 : List Char)
    (pairs : List (BoolOp × List Char)) : List Nat :=
  pySorted (pairs.foldl (specStep inv stem)
    (pySet (invGet inv (stem (String.mk (t0.map lowerCharPy))))))

/- `str(n)` for a nonnegative Python int, little-endian digits first.  The fuel
   bounds the number of divisions (`fuel = n` suffices). -/
def natDigitsRev : Nat → Nat → List Nat
  | 0, _ => []
  | fuel + 1, n => if n = 0 then [] else n % 10 :: natDigitsRev fuel (n / 10)

def digitCharPy (d : Nat) : Char := Char.ofNat (48 + d)

def pyStrNat (n : Nat) : String :=
  if n = 0 then "0" else String.mk (((natDigitsRev n n).map digitCharPy).reverse)

/- `int(s)` for a canonical nonnegative decimal string. -/
def pyIntStr (s : String) : Nat :=
  s.data.foldl (fun a c => 10 * a + (c.toNat - 48)) 0

/- The JSON object tree written by `_save_indexes` (`indexes.json`). -/
structure IndexMetadata where
  total_documents : Nat
  total_terms : Nat
  created_at : String
deriving DecidableEq

structure DocEntry where
  filename : String
  path : String
deriving DecidableEq

structure InvEntry where
  document_frequency : Nat
  postings : List Nat
deriving DecidableEq

structure IndexData where
  metadata : IndexMetadata
  document_mapping : List (String × DocEntry)
  inverted_index : List (String × InvEntry)
  positional_index : List (String × List (String × List Nat))
deriving DecidableEq

/- `os.path.join(self.docs_folder, filename)` (POSIX form). -/
def pathJoin (folder fn : String) : String := folder ++ "/" ++ fn

/- `_save_indexes`: doc_id keys are serialized as strings, the inverted index
   stores the derived document frequency, `now` is `str(datetime.now())`. -/
def saveIndexes (folder now : String) (st : IRState) : IndexData :=
  { metadata :=
      { total_documents := st.docMap.length
        total_terms := st.inverted.length
        created_at := now }
    document_mapping :=
      st.docMap.map (fun pr => (pyStrNat pr.1, { filename := pr.2, path := pathJoin folder pr.2 }))
    inverted_index :=
      st.inverted.map (fun pr => (pr.1, { document_frequency := pr.2.length, postings := pr.2 }))
    positional_index :=
      st.positional.map (fun pr => (pr.1, pr.2.map (fun e => (pyStrNat e.1, e.2)))) }

/- `self.positional_index[term][int(doc_id)] = positions` on the nested
   defaultdict: overwrite the existing key or create it at the end. -/
def innerAssign (m : PosInner) (d : Nat) (l : List Nat) : PosInner :=
  match m with
  | [] => [(d, l)]
  | (d', l') :: rest => if d = d' then (d, l) :: rest else (d', l') :: innerAssign rest d l

def posAssign (p : PosIndex) (t : String) (d : Nat) (l : List Nat) : PosIndex :=
  match p with
  | [] => [(t, [(d, l)])]
  | (t', m) :: rest =>
    if t = t' then (t', innerAssign m d l) :: rest else (t', m) :: posAssign rest t d l

/- The double loop of `_load_indexes` lines 154-157: a term whose inner object
   is empty is never assigned, hence dropped. -/
def loadPositional (entries : List (String × List (String × List Nat))) : PosIndex :=
  entries.foldl
    (fun p pr => pr.2.foldl (fun p2 e => posAssign p2 pr.1 (pyIntStr e.1) e.2) p) []

/- `_load_indexes`: restore doc_ids with `int(...)` keys, postings, positions. -/
def loadIndexes (data : IndexData) : IRState :=
  { docMap := data.document_mapping.map (fun pr => (pyIntStr pr.1, pr.2.filename))
    inverted := data.inverted_index.map (fun pr => (pr.1, pr.2.postings))
    positional := loadPositional data.positional_index }

/- The engine invariant used by claim C10: every doc_id posted in the inverted
   index has its key chain present in the positional index. -/
def wfState (st : IRState) : Prop :=
  ∀ e ∈ st.inverted, ∀ d ∈ e.2, posKeyPresent st.positional e.1 d = true

instance (st : IRState) : Decidable (wfState st) := by
  unfold wfState; infer_instance

/- Build invariants: all doc_ids recorded so far lie below the loop counter. -/
def posBound (st : IRState) (j : Nat) : Prop :=
  ∀ t d, posGet st.positional t d ≠ [] → d < j

def invOk (st : IRState) (j : Nat) : Prop :=
  ∀ t, (invGet st.inverted t).Nodup ∧ ∀ d ∈ invGet st.inverted t, d < j

/- ------------------------------------------------------------------ -/
/- Theorems.  First, the basic facts about the Python set/sort model. -/
/- ------------------------------------------------------------------ -/

theorem mem_pySorted {a : Nat} {l : List Nat} : a ∈ pySorted l ↔ a ∈ l :=
  (List.perm_insertionSort _ l).mem_iff

theorem sorted_pySorted (l : List Nat) : (pySorted l).Sorted (· ≤ ·) :=
  List.sorted_insertionSort _ l

theorem nodup_pySorted {l : List Nat} (h : l.Nodup) : (pySorted l).Nodup :=
  (List.perm_insertionSort _ l).nodup_iff.mpr h

theorem mem_pySet {a : Nat} {l : List Nat} : a ∈ pySet l ↔ a ∈ l := by
  unfold pySet; rw [mem_pySorted, List.mem_dedup]

theorem sorted_pySet (l : List Nat) : (pySet l).Sorted (· ≤ ·) :=
  sorted_pySorted _

theorem nodup_pySet (l : List Nat) : (pySet l).Nodup :=
  nodup_pySorted l.nodup_dedup

theorem mem_listInter {a : Nat} {l m : List Nat} : a ∈ listInter l m ↔ a ∈ l ∧ a ∈ m := by
  unfold listInter; simp [List.mem_filter]

theorem mem_listUnion {a : Nat} {l m : List Nat} : a ∈ listUnion l m ↔ a ∈ l ∨ a ∈ m := by
  unfold listUnion; rw [mem_pySet, List.mem_append]

theorem mem_listSdiff {a : Nat} {l m : List Nat} : a ∈ listSdiff l m ↔ a ∈ l ∧ a ∉ m := by
  unfold listSdiff; simp [List.mem_filter]

theorem sorted_listInter {l m : List Nat} (h : l.Sorted (· ≤ ·)) :
    (listInter l m).Sorted (· ≤ ·) :=
  List.Pairwise.filter _ h

theorem nodup_listInter {l m : List Nat} (h : l.Nodup) : (listInter l m).Nodup :=
  List.Nodup.filter _ h

/- Two sorted duplicate-free lists with the same members are equal. -/
theorem sortedNodupExt {l m : List Nat} (hls : l.Sorted (· ≤ ·)) (hms : m.Sorted (· ≤ ·))
    (hln : l.Nodup) (hmn : m.Nodup) (h : ∀ a, a ∈ l ↔ a ∈ m) : l = m :=
  List.eq_of_perm_of_sorted ((List.perm_ext_iff_of_nodup hln hmn).2 h) hls hms

/- Facts about the vivifying defaultdict access of the proximity evaluator:
   it returns the stored value, it never changes any observed value, and on a
   present key chain it does not change the map at all. -/

theorem innerDD_fst (m : PosInner) (d : Nat) : (innerDD m d).1 = innerGet m d := by
  induction m with
  | nil => simp [innerDD, innerGet]
  | cons e rest ih =>
    obtain ⟨d', l⟩ := e
    by_cases h : d = d' <;> simp [innerDD, innerGet, h, ih]

theorem innerDD_obs (m : PosInner) (d d' : Nat) :
    innerGet (innerDD m d).2 d' = innerGet m d' := by
  induction m with
  | nil =>
    by_cases h : d' = d <;> simp [innerDD, innerGet, h]
  | cons e rest ih =>
    obtain ⟨d0, l⟩ := e
    by_cases h : d = d0
    · simp [innerDD, innerGet, h]
    · by_cases h' : d' = d0 <;> simp [innerDD, innerGet, h, h', ih]

theorem innerDD_present {m : PosInner} {d : Nat} (h : innerPresent m d = true) :
    (innerDD m d).2 = m := by
  induction m with
  | nil => simp [innerPresent] at h
  | cons e rest ih =>
    obtain ⟨d0, l⟩ := e
    by_cases hd : d = d0
    · simp [innerDD, hd]
    · simp only [innerPresent, if_neg hd] at h
      simp [innerDD, hd, ih h]

theorem ddAccess_fst (p : PosIndex) (t : String) (d : Nat) :
    (ddAccess p t d).1 = posGet p t d := by
  induction p with
  | nil => simp [ddAccess, posGet]
  | cons e rest ih =>
    obtain ⟨t0, m⟩ := e
    by_cases h : t = t0 <;> simp [ddAccess, posGet, h, innerDD_fst, ih]

theorem ddAccess_obs (p : PosIndex) (t : String) (d : Nat) (t' : String) (d' : Nat) :
    posGet (ddAccess p t d).2 t' d' = posGet p t' d' := by
  induction p with
  | nil =>
    by_cases h : t' = t
    · by_cases hd : d' = d <;> simp [ddAccess, posGet, innerGet, h, hd]
    · simp [ddAccess, posGet, h]
  | cons e rest ih =>
    obtain ⟨t0, m⟩ := e
    by_cases h : t = t0
    · by_cases h' : t' = t0 <;> simp [ddAccess, posGet, h, h', innerDD_obs]
    · by_cases h' : t' = t0 <;> simp [ddAccess, posGet, h, h', ih]

theorem ddAccess_present {p : PosIndex} {t : String} {d : Nat}
    (h : posKeyPresent p t d = true) : (ddAccess p t d).2 = p := by
  induction p with
  | nil => simp [posKeyPresent] at h
  | cons e rest ih =>
    obtain ⟨t0, m⟩ := e
    by_cases ht : t = t0
    · simp only [posKeyPresent, if_pos ht] at h
      simp [ddAccess, ht, innerDD_present h]
    · simp only [posKeyPresent, if_neg ht] at h
      simp [ddAccess, ht, ih h]

/- The document loop of the proximity evaluator: its collected result is the
   filter of the iterated documents by the pair-within-k check against the
   original positional index. -/
theorem proxLoop_fst (k : Nat) (t1 t2 : String) (p0 : PosIndex) :
    ∀ (ds : List Nat) (a : List Nat) (p : PosIndex),
      (∀ t' d', posGet p t' d' = posGet p0 t' d') →
      (proxLoop k t1 t2 (a, p) ds).1
        = a ++ ds.filter
            (fun d => proxPairCheck k (posGet p0 t1 d) (posGet p0 t2 d)) := by
  intro ds
  induction ds with
  | nil => intro a p hobs; simp [proxLoop]
  | cons d rest ih =>
    intro a p hobs
    have h1 : (ddAccess p t1 d).1 = posGet p0 t1 d := by
      rw [ddAccess_fst]; exact hobs t1 d
    have h2 : (ddAccess (ddAccess p t1 d).2 t2 d).1 = posGet p0 t2 d := by
      rw [ddAccess_fst, ddAccess_obs]; exact hobs t2 d
    have hobs' : ∀ t' d',
        posGet (ddAccess (ddAccess p t1 d).2 t2 d).2 t' d' = posGet p0 t' d' := by
      intro t' d'; rw [ddAccess_obs, ddAccess_obs]; exact hobs t' d'
    simp only [proxLoop, h1, h2]
    by_cases hc : proxPairCheck k (posGet p0 t1 d) (posGet p0 t2 d) = true
    · rw [if_pos hc, ih (a ++ [d]) _ hobs']
      simp [List.filter_cons, hc]
    · rw [if_neg hc, ih a _ hobs']
      simp only [Bool.not_eq_true] at hc
      simp [List.filter_cons, hc]

theorem proxLoop_snd (k : Nat) (t1 t2 : String) :
    ∀ (ds : List Nat) (a : List Nat) (p : PosIndex),
      (∀ d ∈ ds, posKeyPresent p t1 d = true ∧ posKeyPresent p t2 d = true) →
      (proxLoop k t1 t2 (a, p) ds).2 = p := by
  intro ds
  induction ds with
  | nil => intro a p _; simp [proxLoop]
  | cons d rest ih =>
    intro a p hpres
    have hd := hpres d (by simp)
    have e1 : (ddAccess p t1 d).2 = p := ddAccess_present hd.1
    have e2 : (ddAccess (ddAccess p t1 d).2 t2 d).2 = p := by
      rw [e1]; exact ddAccess_present hd.2
    simp only [proxLoop, e2]
    by_cases hc : proxPairCheck k (ddAccess p t1 d).1 (ddAccess (ddAccess p t1 d).2 t2 d).1 = true
    · rw [if_pos hc]
      exact ih (a ++ [d]) p (fun x hx => hpres x (by simp [hx]))
    · rw [if_neg hc]
      exact ih a p (fun x hx => hpres x (by simp [hx]))

/- The proximity evaluator's result, in closed form: the sorted filter of the
   common documents of the two stems by the pair-within-k check. -/
theorem proxResultEq (stem : String → String) (st : IRState) (q : String)
    (tp : List Char) (k : Nat) (w1 w2 : List Char)
    (hparse : parseProx q.data = some (tp, k))
    (hsplit : pySplitWs (tp.map lowerCharPy) = [w1, w2]) :
    (processProximityQuery stem st q).1
      = pySorted ((listInter (pySet (invGet st.inverted (stem (String.mk w1))))
            (pySet (invGet st.inverted (stem (String.mk w2))))).filter
          (fun d => proxPairCheck k (posGet st.positional (stem (String.mk w1)) d)
            (posGet st.positional (stem (String.mk w2)) d))) := by
  unfold processProximityQuery
  rw [hparse]
  simp only [hsplit]
  rw [proxLoop_fst _ _ _ st.positional _ [] st.positional (fun _ _ => rfl)]
  simp

theorem proxPairCheck_iff (k : Nat) (a b : List Nat) :
    proxPairCheck k a b = true ↔ ∃ p1 ∈ a, ∃ p2 ∈ b, absDiff p1 p2 ≤ k := by
  simp [proxPairCheck, List.any_eq_true]

theorem absDiff_comm (a b : Nat) : absDiff a b = absDiff b a := by
  unfold absDiff; split <;> split <;> omega

theorem proxPairCheck_comm (k : Nat) (a b : List Nat) :
    proxPairCheck k a b = proxPairCheck k b a := by
  rw [Bool.eq_iff_iff, proxPairCheck_iff, proxPairCheck_iff]
  constructor
  · rintro ⟨p1, h1, p2, h2, hk⟩
    exact ⟨p2, h2, p1, h1, absDiff_comm p2 p1 ▸ hk⟩
  · rintro ⟨p2, h2, p1, h1, hk⟩
    exact ⟨p1, h1, p2, h2, absDiff_comm p1 p2 ▸ hk⟩

/-- Claim C3: for every well-formed two-term proximity query, the evaluator
stems both terms, intersects their inverted-index document sets, and includes a
document exactly when some pair of stored positions of the two stems in that
document lies within distance k; the result is duplicate-free and sorted
ascending by doc_id. -/
theorem c3_theorem (stem : String → String) (st : IRState) (q : String)
    (tp : List Char) (k : Nat) (w1 w2 : List Char)
    (hparse : parseProx q.data = some (tp, k))
    (hsplit : pySplitWs (tp.map lowerCharPy) = [w1, w2]) :
    ((processProximityQuery stem st q).1.Sorted (· ≤ ·)) ∧
    (processProximityQuery stem st q).1.Nodup ∧
    ∀ d, d ∈ (processProximityQuery stem st q).1 ↔
      d ∈ invGet st.inverted (stem (String.mk w1)) ∧
      d ∈ invGet st.inverted (stem (String.mk w2)) ∧
      ∃ p1 ∈ posGet st.positional (stem (String.mk w1)) d,
      ∃ p2 ∈ posGet st.positional (stem (String.mk w2)) d,
        absDiff p1 p2 ≤ k := by
  rw [proxResultEq stem st q tp k w1 w2 hparse hsplit]
  refine ⟨sorted_pySorted _, nodup_pySorted (List.Nodup.filter _ (nodup_listInter (nodup_pySet _))), ?_⟩
  intro d
  rw [mem_pySorted, List.mem_filter, mem_listInter, mem_pySet, mem_pySet, proxPairCheck_iff]
  tauto

/-- Claim C8: proximity queries are symmetric in their two terms — two queries
with the same bound k whose term lists are reverses of each other evaluate to
the same sorted list of doc_ids. -/
theorem c8_theorem (stem : String → String) (st : IRState) (q1 q2 : String)
    (tp1 tp2 : List Char) (k : Nat) (w1 w2 : List Char)
    (hp1 : parseProx q1.data = some (tp1, k))
    (hs1 : pySplitWs (tp1.map lowerCharPy) = [w1, w2])
    (hp2 : parseProx q2.data = some (tp2, k))
    (hs2 : pySplitWs (tp2.map lowerCharPy) = [w2, w1]) :
    (processProximityQuery stem st q1).1 = (processProximityQuery stem st q2).1 := by
  rw [proxResultEq stem st q1 tp1 k w1 w2 hp1 hs1,
    proxResultEq stem st q2 tp2 k w2 w1 hp2 hs2]
  apply congrArg pySorted
  apply sortedNodupExt
  · exact List.Pairwise.filter _ (sorted_listInter (sorted_pySet _))
  · exact List.Pairwise.filter _ (sorted_listInter (sorted_pySet _))
  · exact List.Nodup.filter _ (nodup_listInter (nodup_pySet _))
  · exact List.Nodup.filter _ (nodup_listInter (nodup_pySet _))
  · intro d
    rw [List.mem_filter, List.mem_filter, mem_listInter, mem_listInter,
      proxPairCheck_comm]
    tauto

/- If a doc_id is posted under a term, the inverted index holds a matching entry. -/
theorem invGet_entry (inv : InvIndex) (t : String) {d : Nat} (h : d ∈ invGet inv t) :
    (t, invGet inv t) ∈ inv := by
  induction inv with
  | nil => simp [invGet] at h
  | cons e rest ih =>
    obtain ⟨t0, l⟩ := e
    by_cases ht : t = t0
    · subst ht; simp [invGet]
    · simp only [invGet, if_neg ht] at h ⊢
      exact List.mem_cons_of_mem _ (ih h)

theorem wf_posKey {st : IRState} (hwf : wfState st) {t : String} {d : Nat}
    (h : d ∈ invGet st.inverted t) : posKeyPresent st.positional t d = true :=
  hwf (t, invGet st.inverted t) (invGet_entry st.inverted t h) d h

/-- Claim C10: query evaluation does not change the engine's index state — for a
well-formed state (every posted doc_id has its positional key chain present,
as every built state does), every branch of `process_query`, including the
proximity evaluator's reads through the auto-vivifying nested defaultdict,
returns the document map, inverted index and positional index unchanged. -/
theorem c10_theorem (stem : String → String) (hashFn : String → Int) (fuel : Nat)
    (st : IRState) (q : String) (hwf : wfState st) :
    (processQueryF stem hashFn fuel st q).2 = st := by
  unfold processQueryF
  by_cases hs : '/' ∈ q.data
  · rw [if_pos hs]
    show (processProximityQuery stem st q).2 = st
    unfold processProximityQuery
    split
    · rfl
    · split
      · rename_i tp k w1 w2 heq
        show (⟨st.docMap, st.inverted, _⟩ : IRState) = st
        rw [proxLoop_snd _ _ _ _ [] st.positional ?pres]
        case pres =>
          intro d hd
          rw [mem_listInter, mem_pySet, mem_pySet] at hd
          exact ⟨wf_posKey hwf hd.1, wf_posKey hwf hd.2⟩
      · rfl
  · rw [if_neg hs]
    split <;> rfl

theorem c3_witness :
    parseProx "a b /1".data = some ("a b".data, 1) ∧
    pySplitWs ("a b".data.map lowerCharPy) = ["a".data, "b".data] ∧
    (((processProximityQuery (fun s => s)
        (⟨[], [("a", [0]), ("b", [0])], [("a", [(0, [0])]), ("b", [(0, [1])])]⟩ : IRState)
        "a b /1").1.Sorted (· ≤ ·)) ∧
      (processProximityQuery (fun s => s)
        (⟨[], [("a", [0]), ("b", [0])], [("a", [(0, [0])]), ("b", [(0, [1])])]⟩ : IRState)
        "a b /1").1.Nodup ∧
      ∀ d, d ∈ (processProximityQuery (fun s => s)
        (⟨[], [("a", [0]), ("b", [0])], [("a", [(0, [0])]), ("b", [(0, [1])])]⟩ : IRState)
        "a b /1").1 ↔
        d ∈ invGet [("a", [0]), ("b", [0])] ((fun s : String => s) (String.mk "a".data)) ∧
        d ∈ invGet [("a", [0]), ("b", [0])] ((fun s : String => s) (String.mk "b".data)) ∧
        ∃ p1 ∈ posGet [("a", [(0, [0])]), ("b", [(0, [1])])]
            ((fun s : String => s) (String.mk "a".data)) d,
        ∃ p2 ∈ posGet [("a", [(0, [0])]), ("b", [(0, [1])])]
            ((fun s : String => s) (String.mk "b".data)) d,
          absDiff p1 p2 ≤ 1) :=
  ⟨by decide, by decide,
    c3_theorem (fun s => s)
      (⟨[], [("a", [0]), ("b", [0])], [("a", [(0, [0])]), ("b", [(0, [1])])]⟩ : IRState)
      "a b /1" "a b".data 1 "a".data "b".data (by decide) (by decide)⟩

theorem c8_witness :
    parseProx "a b /1".data = some ("a b".data, 1) ∧
    parseProx "b a /1".data = some ("b a".data, 1) ∧
    (processProximityQuery (fun s => s)
      (⟨[], [("a", [0]), ("b", [0])], [("a", [(0, [0])]), ("b", [(0, [1])])]⟩ : IRState)
      "a b /1").1 =
    (processProximityQuery (fun s => s)
      (⟨[], [("a", [0]), ("b", [0])], [("a", [(0, [0])]), ("b", [(0, [1])])]⟩ : IRState)
      "b a /1").1 :=
  ⟨by decide, by decide,
    c8_theorem (fun s => s)
      (⟨[], [("a", [0]), ("b", [0])], [("a", [(0, [0])]), ("b", [(0, [1])])]⟩ : IRState)
      "a b /1" "b a /1" "a b".data "b a".data 1 "a".data "b".data
      (by decide) (by decide) (by decide) (by decide)⟩

/- Facts about the defaultdict appends of `_build_indexes`. -/

theorem innerGet_innerAppend (m : PosInner) (dd x d : Nat) :
    innerGet (innerAppend m dd x) d = innerGet m d ++ (if dd = d then [x] else []) := by
  induction m with
  | nil =>
    by_cases h : dd = d
    · subst h; simp [innerAppend, innerGet]
    · have h' : ¬d = dd := fun hh => h hh.symm
      simp [innerAppend, innerGet, h, h']
  | cons e rest ih =>
    obtain ⟨d0, l⟩ := e
    by_cases h1 : dd = d0
    · subst h1
      by_cases h2 : d = dd
      · subst h2; simp [innerAppend, innerGet]
      · have h2' : ¬dd = d := fun hh => h2 hh.symm
        simp [innerAppend, innerGet, h2, h2']
    · have h1' : ¬dd = d0 := h1
      by_cases h2 : d = d0
      · subst h2
        have : ¬dd = d := fun hh => h1 (hh ▸ rfl)
        simp [innerAppend, innerGet, h1', this]
      · simp [innerAppend, innerGet, h1', h2, ih]

theorem posGet_posAppend (p : PosIndex) (a : String) (dd x : Nat) (t : String) (d : Nat) :
    posGet (posAppend p a dd x) t d
      = posGet p t d ++ (if a = t ∧ dd = d then [x] else []) := by
  induction p with
  | nil =>
    by_cases h1 : t = a
    · subst h1
      by_cases h2 : dd = d
      · subst h2; simp [posAppend, posGet, innerGet]
      · have h2' : ¬d = dd := fun hh => h2 hh.symm
        simp [posAppend, posGet, innerGet, h2, h2']
    · have h1' : ¬a = t := fun hh => h1 hh.symm
      simp [posAppend, posGet, h1, h1']
  | cons e rest ih =>
    obtain ⟨t0, m⟩ := e
    by_cases h1 : a = t0
    · subst h1
      by_cases h2 : t = a
      · subst h2; simp [posAppend, posGet, innerGet_innerAppend]
      · have h2' : ¬a = t := fun hh => h2 hh.symm
        simp [posAppend, posGet, h2, h2']
    · by_cases h2 : t = t0
      · subst h2
        have : ¬a = t := fun hh => h1 (hh ▸ rfl)
        simp [posAppend, posGet, h1, this]
      · simp [posAppend, posGet, h1, h2, ih]

theorem invGet_invAppend (inv : InvIndex) (a : String) (x : Nat) (t : String) :
    invGet (invAppend inv a x) t = invGet inv t ++ (if a = t then [x] else []) := by
  induction inv with
  | nil =>
    by_cases h : t = a
    · subst h; simp [invAppend, invGet]
    · have h' : ¬a = t := fun hh => h hh.symm
      simp [invAppend, invGet, h, h']
  | cons e rest ih =>
    obtain ⟨t0, l⟩ := e
    by_cases h1 : a = t0
    · subst h1
      by_cases h2 : t = a
      · subst h2; simp [invAppend, invGet]
      · have h2' : ¬a = t := fun hh => h2 hh.symm
        simp [invAppend, invGet, h2, h2']
    · by_cases h2 : t = t0
      · subst h2
        have : ¬a = t := fun hh => h1 (hh ▸ rfl)
        simp [invAppend, invGet, h1, this]
      · simp [invAppend, invGet, h1, h2, ih]

/- The positional appends of one document: the positions collected for `(t, i)`
   are exactly the positions paired with stem `t`, and no other doc_id is touched. -/

theorem posGet_foldAppend_self (i : Nat) (t : String) :
    ∀ (toks : List (String × Nat)) (p : PosIndex),
      posGet (toks.foldl (fun p2 pr => posAppend p2 pr.1 i pr.2) p) t i
        = posGet p t i ++ toks.filterMap (fun pr => if pr.1 = t then some pr.2 else none) := by
  intro toks
  induction toks with
  | nil => intro p; simp
  | cons pr rest ih =>
    intro p
    obtain ⟨s, x⟩ := pr
    rw [List.foldl_cons, ih, posGet_posAppend]
    by_cases h : s = t
    · simp [List.filterMap_cons, h, List.append_assoc]
    · simp [List.filterMap_cons, h]

theorem posGet_foldAppend_other (i : Nat) (t : String) (d : Nat) (hd : d ≠ i) :
    ∀ (toks : List (String × Nat)) (p : PosIndex),
      posGet (toks.foldl (fun p2 pr => posAppend p2 pr.1 i pr.2) p) t d = posGet p t d := by
  intro toks
  induction toks with
  | nil => intro p; simp
  | cons pr rest ih =>
    intro p
    rw [List.foldl_cons, ih, posGet_posAppend]
    have : ¬(pr.1 = t ∧ i = d) := fun hh => hd hh.2.symm
    simp [this]

/- The inverted-index appends of one document: doc_id `i` is appended once for
   each distinct stem of the document, nothing else changes. -/
theorem invGet_foldAppend (i : Nat) :
    ∀ (terms : List String) (inv0 : InvIndex) (t : String), terms.Nodup →
      invGet (terms.foldl (fun inv t2 => invAppend inv t2 i) inv0) t
        = invGet inv0 t ++ (if t ∈ terms then [i] else []) := by
  intro terms
  induction terms with
  | nil => intro inv0 t _; simp
  | cons a rest ih =>
    intro inv0 t hnd
    rw [List.foldl_cons, ih _ _ (List.Nodup.of_cons hnd), invGet_invAppend]
    by_cases h : a = t
    · subst h
      have : a ∉ rest := (List.nodup_cons.mp hnd).1
      simp [this]
    · have h' : ¬t = a := fun hh => h hh.symm
      by_cases hm : t ∈ rest <;> simp [h, h', hm]

/- One build-loop iteration, componentwise. -/

theorem buildStep_notTxt {pre : String → List (String × Nat)} {st : IRState} {i : Nat}
    {fn : String} {c : Option String} (h : endsTxt fn = false) :
    buildStep pre st i fn c = st := by
  simp [buildStep, h]

theorem buildStep_none (pre : String → List (String × Nat)) (st : IRState) (i : Nat)
    (fn : String) : buildStep pre st i fn none = st := by
  unfold buildStep; split <;> rfl

theorem buildStep_kept {pre : String → List (String × Nat)} (st : IRState) (i : Nat)
    {fn : String} (ct : String) (h : endsTxt fn = true) :
    buildStep pre st i fn (some ct)
      = { docMap := st.docMap ++ [(i, fn)]
          inverted := ((pre ct).map Prod.fst).dedup.foldl
            (fun inv t => invAppend inv t i) st.inverted
          positional := (pre ct).foldl
            (fun p pr => posAppend p pr.1 i pr.2) st.positional } := by
  unfold buildStep
  rw [if_pos h]

theorem posBound_step {pre : String → List (String × Nat)} {st : IRState} {i : Nat}
    {fn : String} {c : Option String} (hb : posBound st i) :
    posBound (buildStep pre st i fn c) (i + 1) := by
  intro t d hne
  by_cases he : endsTxt fn = true
  · cases c with
    | none => rw [buildStep_none] at hne; exact Nat.lt_succ_of_lt (hb t d hne)
    | some ct =>
      rw [buildStep_kept st i ct he] at hne
      by_cases hd : d = i
      · omega
      · rw [posGet_foldAppend_other i t d hd] at hne
        exact Nat.lt_succ_of_lt (hb t d hne)
  · rw [buildStep_notTxt (Bool.not_eq_true _ ▸ he)] at hne
    exact Nat.lt_succ_of_lt (hb t d hne)

/- Later iterations never touch positions of an earlier doc_id. -/
theorem posGet_buildGo_lt (pre : String → List (String × Nat)) :
    ∀ (L : List (String × Option String)) (j : Nat) (st : IRState) (t : String) (d : Nat),
      d < j → posGet (buildGo pre j L st).positional t d = posGet st.positional t d := by
  intro L
  induction L with
  | nil => intro j st t d _; rfl
  | cons e rest ih =>
    intro j st t d hd
    obtain ⟨fn, c⟩ := e
    show posGet (buildGo pre (j + 1) rest (buildStep pre st j fn c)).positional t d = _
    rw [ih (j + 1) _ t d (Nat.lt_succ_of_lt hd)]
    by_cases he : endsTxt fn = true
    · cases c with
      | none => rw [buildStep_none]
      | some ct =>
        rw [buildStep_kept st j ct he]
        exact posGet_foldAppend_other j t d (Nat.ne_of_lt hd) _ _
    · rw [buildStep_notTxt (Bool.not_eq_true _ ▸ he)]

/- The positional entry of an indexed document is produced entirely by its own
   iteration: it is the list of positions of the stem in that document. -/
theorem posGet_build (pre : String → List (String × Nat)) :
    ∀ (L : List (String × Option String)) (j : Nat) (st : IRState) (d : Nat)
      (fn ct : String) (t : String),
      posBound st j → L.get? d = some (fn, some ct) → endsTxt fn = true →
      posGet (buildGo pre j L st).positional t (j + d)
        = (pre ct).filterMap (fun pr => if pr.1 = t then some pr.2 else none) := by
  intro L
  induction L with
  | nil => intro j st d fn ct t _ hget _; simp at hget
  | cons e rest ih =>
    intro j st d fn ct t hb hget hend
    obtain ⟨fn0, c0⟩ := e
    cases d with
    | zero =>
      simp only [List.get?] at hget
      injection hget with hget
      have hfn : fn0 = fn := by injection hget
      have hc : c0 = some ct := by injection hget
      subst hfn
      cases hc
      simp only [buildGo]
      have hj0 : j + 0 = j := Nat.add_zero j
      rw [hj0, posGet_buildGo_lt pre rest (j + 1) _ t j (Nat.lt_succ_self j),
        buildStep_kept st j ct hend]
      show posGet ((pre ct).foldl (fun p pr => posAppend p pr.1 j pr.2) st.positional) t j = _
      rw [posGet_foldAppend_self]
      have hz : posGet st.positional t j = [] := by
        by_contra hne
        exact absurd (hb t j hne) (Nat.lt_irrefl j)
      rw [hz, List.nil_append]
    | succ d' =>
      show posGet (buildGo pre (j + 1) rest (buildStep pre st j fn0 c0)).positional t (j + (d' + 1)) = _
      have harith : j + (d' + 1) = (j + 1) + d' := by omega
      rw [harith]
      exact ih (j + 1) _ d' fn ct t (posBound_step hb) hget hend

/- Rewriting the positions of one document in terms of the raw token stream. -/
theorem preprocess_filterMap (stem : String → String) (stop : List String)
    (ct : String) (t : String) :
    (preprocessText stem stop ct).filterMap (fun pr => if pr.1 = t then some pr.2 else none)
      = (tokenizeText ct).enum.filterMap
          (fun p => if p.2 ∉ stop ∧ stem p.2 = t then some p.1 else none) := by
  unfold preprocessText
  rw [List.filterMap_filterMap]
  congr 1
  funext p
  by_cases h1 : p.2 ∈ stop
  · simp [h1]
  · by_cases h2 : stem p.2 = t <;> simp [h1, h2]

/-- Claim C2, amended: a position stored in the positional index for a
(stem, doc_id) pair is the 0-based index of that occurrence among ALL
alphabetic tokens of the document — stop-word tokens are dropped from the index
but still consume their enumeration slot.  For every indexed document, the
stored list for (t, d) is exactly the raw token indices whose token survives
the stop list and stems to t. -/
theorem c2_theorem (stem : String → String) (stop : List String)
    (listing : List (String × Option String)) (d : Nat) (fn ct : String) (t : String)
    (hget : listing.get? d = some (fn, some ct)) (hend : endsTxt fn = true) :
    posGet (buildIndexes stem stop listing).positional t d
      = (tokenizeText ct).enum.filterMap
          (fun p => if p.2 ∉ stop ∧ stem p.2 = t then some p.1 else none) := by
  have hb : posBound emptyIRState 0 := by
    intro t' d' hne
    exact absurd rfl hne
  have h := posGet_build (preprocessText stem stop) listing 0 emptyIRState d fn ct t hb hget hend
  rw [Nat.zero_add] at h
  exact h.trans (preprocess_filterMap stem stop ct t)

theorem c2_witness :
    ([("d.txt", some "a b")] : List (String × Option String)).get? 0
        = some ("d.txt", some "a b") ∧
    endsTxt "d.txt" = true ∧
    posGet (buildIndexes (fun s => s) ["a"] [("d.txt", some "a b")]).positional "b" 0
      = (tokenizeText "a b").enum.filterMap
          (fun p => if p.2 ∉ ["a"] ∧ (fun s : String => s) p.2 = "b" then some p.1 else none) :=
  ⟨by decide, by decide,
    c2_theorem (fun s => s) ["a"] [("d.txt", some "a b")] 0 "d.txt" "a b" "b"
      (by decide) (by decide)⟩

theorem c2_counterexample :
    posGet (buildIndexes (fun s => s) ["a"] [("d.txt", some "a b")]).positional "b" 0 = [1] ∧
    posGet (buildIndexesSpecC2 (fun s => s) ["a"] [("d.txt", some "a b")]).positional "b" 0
      = [0] := by
  decide

/- The document map, built up: one entry per kept listing entry, keyed by its
   enumeration index. -/

theorem docMap_buildStep (pre : String → List (String × Nat)) (st : IRState) (i : Nat)
    (fn : String) (c : Option String) :
    (buildStep pre st i fn c).docMap
      = st.docMap ++ (if endsTxt fn && c.isSome then [(i, fn)] else []) := by
  by_cases he : endsTxt fn = true
  · cases c with
    | none => rw [buildStep_none]; simp [he]
    | some ct => rw [buildStep_kept st i ct he]; simp [he]
  · rw [buildStep_notTxt (Bool.not_eq_true _ ▸ he)]
    simp [Bool.not_eq_true _ ▸ he]

theorem docMap_buildGo (pre : String → List (String × Nat)) :
    ∀ (L : List (String × Option String)) (j : Nat) (st : IRState),
      (buildGo pre j L st).docMap
        = st.docMap ++ (List.enumFrom j L).filterMap
            (fun p => if endsTxt p.2.1 && p.2.2.isSome then some (p.1, p.2.1) else none) := by
  intro L
  induction L with
  | nil => intro j st; simp [buildGo, List.enumFrom]
  | cons e rest ih =>
    intro j st
    obtain ⟨fn, c⟩ := e
    show (buildGo pre (j + 1) rest (buildStep pre st j fn c)).docMap = _
    rw [ih (j + 1) _, docMap_buildStep]
    by_cases hc : (endsTxt fn && c.isSome) = true
    · rw [Bool.and_eq_true] at hc
      simp [List.enumFrom, List.filterMap_cons, Bool.and_eq_true, hc.1, hc.2, List.append_assoc]
    · rw [Bool.and_eq_true] at hc
      simp [List.enumFrom, List.filterMap_cons, Bool.and_eq_true, hc]

/-- Claim C4, amended: entries not ending in `.txt` (and entries whose read
fails) are skipped but still consume their doc_id: a kept entry's doc_id is its
index in the full directory listing, so the assigned doc_ids are strictly
increasing but need not be consecutive. -/
theorem c4_theorem (stem : String → String) (stop : List String)
    (listing : List (String × Option String)) :
    (buildIndexes stem stop listing).docMap
      = listing.enum.filterMap
          (fun p => if endsTxt p.2.1 && p.2.2.isSome then some (p.1, p.2.1) else none) := by
  show (buildGo (preprocessText stem stop) 0 listing emptyIRState).docMap = _
  rw [docMap_buildGo]
  rfl

theorem c4_counterexample :
    (buildIndexes (fun s => s) []
        [("a.txt", some ""), ("b.md", some ""), ("c.txt", some "")]).docMap.map Prod.fst
      ≠ List.range
          (buildIndexes (fun s => s) []
            [("a.txt", some ""), ("b.md", some ""), ("c.txt", some "")]).docMap.length := by
  decide

theorem invOk_step {pre : String → List (String × Nat)} {st : IRState} {i : Nat}
    {fn : String} {c : Option String} (hok : invOk st i) :
    invOk (buildStep pre st i fn c) (i + 1) := by
  intro t
  by_cases he : endsTxt fn = true
  · cases c with
    | none =>
      rw [buildStep_none]
      exact ⟨(hok t).1, fun d hd => Nat.lt_succ_of_lt ((hok t).2 d hd)⟩
    | some ct =>
      rw [buildStep_kept st i ct he]
      show (invGet (((pre ct).map Prod.fst).dedup.foldl (fun inv t2 => invAppend inv t2 i)
        st.inverted) t).Nodup ∧ _
      rw [invGet_foldAppend i _ _ t (List.nodup_dedup _)]
      by_cases hm : t ∈ ((pre ct).map Prod.fst).dedup
      · rw [if_pos hm]
        constructor
        · rw [List.nodup_append]
          refine ⟨(hok t).1, List.nodup_singleton i, ?_⟩
          intro d hd hdi
          rw [List.mem_singleton] at hdi
          exact absurd ((hok t).2 d hd) (by omega)
        · intro d hd
          rw [List.mem_append, List.mem_singleton] at hd
          rcases hd with hd | hd
          · exact Nat.lt_succ_of_lt ((hok t).2 d hd)
          · omega
      · rw [if_neg hm, List.append_nil]
        exact ⟨(hok t).1, fun d hd => Nat.lt_succ_of_lt ((hok t).2 d hd)⟩
  · rw [buildStep_notTxt (Bool.not_eq_true _ ▸ he)]
    exact ⟨(hok t).1, fun d hd => Nat.lt_succ_of_lt ((hok t).2 d hd)⟩

theorem invNodup_buildGo (pre : String → List (String × Nat)) :
    ∀ (L : List (String × Option String)) (j : Nat) (st : IRState), invOk st j →
      ∀ t, (invGet (buildGo pre j L st).inverted t).Nodup := by
  intro L
  induction L with
  | nil => intro j st hok t; exact (hok t).1
  | cons e rest ih =>
    intro j st hok t
    obtain ⟨fn, c⟩ := e
    exact ih (j + 1) _ (invOk_step hok) t

/-- Claim C9: after any build, every posting list of the inverted index holds
distinct doc_ids — a term contributes a document's doc_id exactly once no
matter how often it occurs in the document, because the document's distinct
stems are collected as a set before appending. -/
theorem c9_theorem (stem : String → String) (stop : List String)
    (listing : List (String × Option String)) (t : String) :
    (invGet (buildIndexes stem stop listing).inverted t).Nodup := by
  apply invNodup_buildGo (preprocessText stem stop) listing 0 emptyIRState
  intro t'
  exact ⟨List.nodup_nil, by intro d hd; simp [invGet] at hd⟩

/- The operator loop computes exactly the claim's left-to-right fold when the
   token tail is an alternation of operators and nonempty terms. -/
theorem evalOps_flattenPairs (inv : InvIndex) (stem : String → String) :
    ∀ (pairs : List (BoolOp × List Char)) (S : List Nat),
      (∀ pr ∈ pairs, pr.2 ≠ []) →
      evalOps inv stem S (flattenPairs pairs) = pairs.foldl (specStep inv stem) S := by
  intro pairs
  induction pairs with
  | nil => intro S _; rfl
  | cons pr rest ih =>
    intro S hterms
    obtain ⟨op, t⟩ := pr
    have ht : t ≠ [] := hterms (op, t) (by simp)
    have ht' : t.isEmpty = false := by
      cases t with
      | nil => exact absurd rfl ht
      | cons a l => rfl
    show evalOps inv stem S (opChars op :: t :: flattenPairs rest) = _
    rw [List.foldl_cons]
    have hrest : ∀ pr2 ∈ rest, pr2.2 ≠ [] :=
      fun pr2 h2 => hterms pr2 (List.mem_cons_of_mem _ h2)
    cases op with
    | opAnd =>
      show evalOps inv stem S ("AND".data :: t :: flattenPairs rest) = _
      unfold evalOps
      rw [ht']
      exact ih _ hrest
    | opOr =>
      show evalOps inv stem S ("OR".data :: t :: flattenPairs rest) = _
      unfold evalOps
      rw [ht']
      exact ih _ hrest
    | opNot =>
      show evalOps inv stem S ("NOT".data :: t :: flattenPairs rest) = _
      unfold evalOps
      rw [ht']
      exact ih _ hrest

theorem processBooleanFlat_eq (inv : InvIndex) (stem : String → String) (q : String)
    (t0 : List Char) (p : BoolOp × List Char) (ps : List (BoolOp × List Char))
    (hsplit : splitBoolOps q.data = t0 :: flattenPairs (p :: ps))
    (hterms : ∀ pr ∈ p :: ps, pr.2 ≠ []) :
    processBooleanFlat inv stem q = specLeftToRight inv stem t0 (p :: ps) := by
  unfold processBooleanFlat
  rw [hsplit]
  show pySorted (evalOps inv stem
      (pySet (invGet inv (stem (String.mk (t0.map lowerCharPy))))) (flattenPairs (p :: ps)))
    = _
  rw [evalOps_flattenPairs inv stem (p :: ps) _ hterms]
  rfl

/-- Claim C1, amended: for every slash-free, parenthesis-free query that is
routed to the boolean evaluator (it contains one of the literal substrings
`' AND '`, `' OR '` or `'NOT '`) and that splits on `\s+(AND|OR|NOT)\s+` into
an alternating sequence term0, op1, term1, ..., opn, termn (n ≥ 1, terms
nonempty), process_query evaluates it strictly left-to-right with no operator
precedence: start from the posting set of the stemmed (lower-cased) term0 and
fold each (op, term) pair with AND = intersection, OR = union, NOT = set
difference, returning the final set sorted ascending. -/
theorem c1_theorem (stem : String → String) (hashFn : String → Int) (fuel : Nat)
    (st : IRState) (q : String) (t0 : List Char)
    (p : BoolOp × List Char) (ps : List (BoolOp × List Char))
    (hfuel : 0 < fuel) (hs : '/' ∉ q.data) (hb : '(' ∉ q.data)
    (hr : boolRouteB q = true)
    (hsplit : splitBoolOps q.data = t0 :: flattenPairs (p :: ps))
    (hterms : ∀ pr ∈ p :: ps, pr.2 ≠ []) :
    (processQueryF stem hashFn fuel st q).1
      = some (specLeftToRight st.inverted stem t0 (p :: ps)) := by
  obtain ⟨n, rfl⟩ : ∃ n, fuel = n + 1 := ⟨fuel - 1, by omega⟩
  unfold processQueryF
  rw [if_neg hs]
  unfold boolRouteB at hr
  rw [if_pos hr]
  show processBooleanQueryF st.inverted stem hashFn (n + 1) q = _
  unfold processBooleanQueryF
  rw [if_neg hb]
  exact congrArg some (processBooleanFlat_eq st.inverted stem q t0 p ps hsplit hterms)

theorem c1_witness :
    splitBoolOps "a AND b".data = "a".data :: flattenPairs [(BoolOp.opAnd, "b".data)] ∧
    (processQueryF (fun s => s) (fun _ => 0) 1
        (⟨[], [("a", [0, 1]), ("b", [1])], []⟩ : IRState) "a AND b").1
      = some (specLeftToRight [("a", [0, 1]), ("b", [1])] (fun s => s) "a".data
          [(BoolOp.opAnd, "b".data)]) :=
  ⟨by decide,
    c1_theorem (fun s => s) (fun _ => 0) 1
      (⟨[], [("a", [0, 1]), ("b", [1])], []⟩ : IRState) "a AND b" "a".data
      (BoolOp.opAnd, "b".data) [] (by decide) (by decide) (by decide) (by decide)
      (by decide) (by decide)⟩

theorem c1_counterexample :
    ¬ (∀ (stem : String → String) (hashFn : String → Int) (fuel : Nat) (st : IRState)
        (q : String) (t0 : List Char) (p : BoolOp × List Char)
        (ps : List (BoolOp × List Char)),
        0 < fuel → '/' ∉ q.data → '(' ∉ q.data →
        splitBoolOps q.data = t0 :: flattenPairs (p :: ps) →
        (∀ pr ∈ p :: ps, pr.2 ≠ []) →
        (processQueryF stem hashFn fuel st q).1
          = some (specLeftToRight st.inverted stem t0 (p :: ps))) := by
  intro h
  exact absurd
    (h (fun s => s) (fun _ => 0) 1 (⟨[], [("a", [0]), ("b", [0])], []⟩ : IRState)
      "a\tAND\tb" "a".data (BoolOp.opAnd, "b".data) [] (by decide) (by decide)
      (by decide) (by decide) (by decide))
    (by decide)

theorem c10_witness :
    wfState (⟨[(0, "d.txt")], [("a", [0]), ("b", [0])],
        [("a", [(0, [0])]), ("b", [(0, [1])])]⟩ : IRState) ∧
    (processQueryF (fun s => s) (fun _ => 0) 1
      (⟨[(0, "d.txt")], [("a", [0]), ("b", [0])],
        [("a", [(0, [0])]), ("b", [(0, [1])])]⟩ : IRState) "a b /1").2 =
    (⟨[(0, "d.txt")], [("a", [0]), ("b", [0])],
        [("a", [(0, [0])]), ("b", [(0, [1])])]⟩ : IRState) :=
  ⟨by decide,
    c10_theorem (fun s => s) (fun _ => 0) 1
      (⟨[(0, "d.txt")], [("a", [0]), ("b", [0])],
        [("a", [(0, [0])]), ("b", [(0, [1])])]⟩ : IRState) "a b /1" (by decide)⟩

/- Claim C7 machinery: the classification of `process_query` on slash-free
   queries is by literal substring, not by whitespace-delimited operator words. -/

theorem processProximityQuery_malformed (stem : String → String) (st : IRState) (q : String)
    (hmal : ∀ tp k, parseProx q.data = some (tp, k) →
      (pySplitWs (tp.map lowerCharPy)).length ≠ 2) :
    processProximityQuery stem st q = ([], st) := by
  cases hp : parseProx q.data with
  | none => simp only [processProximityQuery, hp]
  | some v =>
    obtain ⟨tp, k⟩ := v
    cases hsw : pySplitWs (tp.map lowerCharPy) with
    | nil => simp only [processProximityQuery, hp, hsw]
    | cons w1 rest =>
      cases rest with
      | nil => simp only [processProximityQuery, hp, hsw]
      | cons w2 rest2 =>
        cases rest2 with
        | nil =>
          exact absurd (by rw [hsw]; rfl) (hmal tp k hp)
        | cons w3 rest3 => simp only [processProximityQuery, hp, hsw]

/-- Claim C6: every query containing a slash is classified as a proximity query
(before the boolean and simple-term checks); if it does not match the two-term
`term1 term2 /k` grammar — the anchored proximity regex fails, or the part
before the slash does not hold exactly two whitespace-separated terms — the
malformed-query error is reported and the empty result list is returned, with
the index state untouched and no fatal error. -/
theorem c6_theorem (stem : String → String) (hashFn : String → Int) (fuel : Nat)
    (st : IRState) (q : String) (hs : '/' ∈ q.data)
    (hmal : ∀ tp k, parseProx q.data = some (tp, k) →
      (pySplitWs (tp.map lowerCharPy)).length ≠ 2) :
    processQueryF stem hashFn fuel st q = (some [], st) := by
  unfold processQueryF
  rw [if_pos hs]
  show (some (processProximityQuery stem st q).1, (processProximityQuery stem st q).2)
    = (some [], st)
  rw [processProximityQuery_malformed stem st q hmal]

theorem c6_witness :
    ('/' ∈ "a/b".data) ∧
    processQueryF (fun s => s) (fun _ => 0) 1 (⟨[], [], []⟩ : IRState) "a/b"
      = (some [], (⟨[], [], []⟩ : IRState)) :=
  ⟨by decide,
    c6_theorem (fun s => s) (fun _ => 0) 1 ⟨[], [], []⟩ "a/b" (by decide)
      (fun tp k h => by
        rw [(by decide : parseProx "a/b".data = none)] at h
        exact Option.noConfusion h)⟩

/-- Claim C7, amended: a slash-free query is routed to the boolean evaluator
exactly when it contains one of the literal substrings `' AND '`, `' OR '`
(space-surrounded) or `'NOT '` (`NOT` followed by a space, anywhere — also
inside a longer word such as `CANNOT`, and not at the very end of the query);
otherwise the whole query, stripped and lower-cased, is stemmed and looked up
as a single simple term. -/
theorem c7_theorem (stem : String → String) (hashFn : String → Int) (fuel : Nat)
    (st : IRState) (q : String) (hs : '/' ∉ q.data) :
    processQueryF stem hashFn fuel st q
      = if boolRouteB q = true
        then (processBooleanQueryF st.inverted stem hashFn fuel q, st)
        else (some (simpleTermEval st.inverted stem q), st) := by
  unfold processQueryF boolRouteB simpleTermEval
  rw [if_neg hs]

theorem c7_witness :
    ('/' ∉ "cat".data) ∧
    processQueryF (fun s => s) (fun _ => 0) 1 (⟨[], [("cat", [0])], []⟩ : IRState) "cat"
      = (if boolRouteB "cat" = true
         then (processBooleanQueryF [("cat", [0])] (fun s => s) (fun _ => 0) 1 "cat",
           (⟨[], [("cat", [0])], []⟩ : IRState))
         else (some (simpleTermEval [("cat", [0])] (fun s => s) "cat"),
           (⟨[], [("cat", [0])], []⟩ : IRState))) :=
  ⟨by decide,
    c7_theorem (fun s => s) (fun _ => 0) 1 (⟨[], [("cat", [0])], []⟩ : IRState) "cat"
      (by decide)⟩

theorem c7_counterexample :
    ¬ (∀ (stem : String → String) (hashFn : String → Int) (fuel : Nat) (st : IRState)
        (q : String), '/' ∉ q.data →
        processQueryF stem hashFn fuel st q
          = if containsOpWord q = true
            then (processBooleanQueryF st.inverted stem hashFn fuel q, st)
            else (some (simpleTermEval st.inverted stem q), st)) := by
  intro h
  exact absurd
    (h (fun s => s) (fun _ => 0) 1 (⟨[], [("a", [0]), ("b", [0])], []⟩ : IRState)
      "a\tAND\tb" (by decide))
    (by decide)

/- `int(str(n)) = n` for nonnegative Python ints. -/

theorem natDigitsRev_lt (fuel : Nat) : ∀ n, ∀ d ∈ natDigitsRev fuel n, d < 10 := by
  induction fuel with
  | zero => intro n d hd; simp [natDigitsRev] at hd
  | succ f ih =>
    intro n d hd
    unfold natDigitsRev at hd
    by_cases hn : n = 0
    · simp [hn] at hd
    · rw [if_neg hn] at hd
      rcases List.mem_cons.mp hd with h | h
      · subst h; exact Nat.mod_lt n (by omega)
      · exact ih (n / 10) d h

theorem ofDigits_natDigitsRev (fuel : Nat) : ∀ n, n ≤ fuel →
    Nat.ofDigits 10 (natDigitsRev fuel n) = n := by
  induction fuel with
  | zero =>
    intro n hn
    interval_cases n
    simp [natDigitsRev]
  | succ f ih =>
    intro n hn
    by_cases hz : n = 0
    · subst hz; simp [natDigitsRev]
    · unfold natDigitsRev
      rw [if_neg hz, Nat.ofDigits_cons]
      have hdiv : n / 10 ≤ f := by
        have := Nat.div_lt_self (Nat.pos_of_ne_zero hz) (by omega : 1 < 10)
        omega
      rw [ih (n / 10) hdiv]
      omega

theorem foldr_digitChars : ∀ (ds : List Nat), (∀ d ∈ ds, d < 10) →
    (ds.map digitCharPy).foldr (fun c a => 10 * a + (c.toNat - 48)) 0
      = Nat.ofDigits 10 ds := by
  intro ds
  induction ds with
  | nil => intro _; simp [Nat.ofDigits_nil]
  | cons d rest ih =>
    intro hlt
    have hd : d < 10 := hlt d (by simp)
    have hval : (digitCharPy d).toNat - 48 = d := by
      interval_cases d <;> decide
    rw [List.map_cons, List.foldr_cons, Nat.ofDigits_cons,
      ih (fun x hx => hlt x (List.mem_cons_of_mem _ hx)), hval]
    omega

theorem pyIntStr_pyStrNat (n : Nat) : pyIntStr (pyStrNat n) = n := by
  by_cases hz : n = 0
  · subst hz; decide
  · unfold pyIntStr pyStrNat
    rw [if_neg hz]
    show (((natDigitsRev n n).map digitCharPy).reverse).foldl
      (fun a c => 10 * a + (c.toNat - 48)) 0 = n
    rw [List.foldl_reverse, foldr_digitChars _ (natDigitsRev_lt n n),
      ofDigits_natDigitsRev n n (Nat.le_refl n)]

/- The `_load_indexes` ∘ `_save_indexes` round trip, componentwise. -/

theorem docMap_roundTrip (folder : String) : ∀ (l : List (Nat × String)),
    (l.map (fun pr => (pyStrNat pr.1,
        ({ filename := pr.2, path := pathJoin folder pr.2 } : DocEntry)))).map
      (fun pr => (pyIntStr pr.1, pr.2.filename)) = l := by
  intro l
  induction l with
  | nil => rfl
  | cons e rest ih =>
    obtain ⟨d, fn⟩ := e
    simp only [List.map_cons, ih, pyIntStr_pyStrNat]

theorem inv_roundTrip : ∀ (l : InvIndex),
    (l.map (fun pr => (pr.1,
        ({ document_frequency := pr.2.length, postings := pr.2 } : InvEntry)))).map
      (fun pr => (pr.1, pr.2.postings)) = l := by
  intro l
  induction l with
  | nil => rfl
  | cons e rest ih => simp only [List.map_cons, ih]

theorem posAssign_notMem : ∀ (p : PosIndex) (t : String) (d : Nat) (l : List Nat),
    t ∉ p.map Prod.fst → posAssign p t d l = p ++ [(t, [(d, l)])] := by
  intro p
  induction p with
  | nil => intro t d l _; rfl
  | cons e rest ih =>
    intro t d l hmem
    obtain ⟨t0, m⟩ := e
    have ht : ¬t = t0 := by
      intro hh
      exact hmem (by simp [hh])
    simp only [posAssign, if_neg ht, List.cons_append, List.cons.injEq, true_and]
    exact ih t d l (fun hh => hmem (by simp [hh]))

theorem innerAssign_notMem : ∀ (m : PosInner) (d : Nat) (l : List Nat),
    d ∉ m.map Prod.fst → innerAssign m d l = m ++ [(d, l)] := by
  intro m
  induction m with
  | nil => intro d l _; rfl
  | cons e rest ih =>
    intro d l hmem
    obtain ⟨d0, l0⟩ := e
    have hd : ¬d = d0 := by
      intro hh
      exact hmem (by simp [hh])
    simp only [innerAssign, if_neg hd, List.cons_append, List.cons.injEq, true_and]
    exact ih d l (fun hh => hmem (by simp [hh]))

theorem posAssign_last : ∀ (p : PosIndex) (t : String) (m0 : PosInner) (d : Nat)
    (l : List Nat), t ∉ p.map Prod.fst →
    posAssign (p ++ [(t, m0)]) t d l = p ++ [(t, innerAssign m0 d l)] := by
  intro p
  induction p with
  | nil => intro t m0 d l _; simp [posAssign]
  | cons e rest ih =>
    intro t m0 d l hmem
    obtain ⟨t0, m⟩ := e
    have ht : ¬t = t0 := by
      intro hh
      exact hmem (by simp [hh])
    simp only [List.cons_append, posAssign, if_neg ht, List.cons.injEq, true_and]
    exact ih t m0 d l (fun hh => hmem (by simp [hh]))

theorem loadPos_inner : ∀ (ms : PosInner) (p2 : PosIndex) (t : String) (m0 : PosInner),
    t ∉ p2.map Prod.fst →
    (∀ d ∈ ms.map Prod.fst, d ∉ m0.map Prod.fst) →
    (ms.map Prod.fst).Nodup →
    (ms.map (fun e => (pyStrNat e.1, e.2))).foldl
        (fun p2' e => posAssign p2' t (pyIntStr e.1) e.2) (p2 ++ [(t, m0)])
      = p2 ++ [(t, m0 ++ ms)] := by
  intro ms
  induction ms with
  | nil => intro p2 t m0 _ _ _; simp
  | cons e rest ih =>
    intro p2 t m0 hmem hdis hnd
    obtain ⟨d, l⟩ := e
    simp only [List.map_cons, List.foldl_cons, pyIntStr_pyStrNat]
    rw [posAssign_last p2 t m0 d l hmem,
      innerAssign_notMem m0 d l (hdis d (by simp)),
      ih p2 t (m0 ++ [(d, l)]) hmem ?dis ?nd]
    case dis =>
      intro d' hd'
      rw [List.map_append, List.mem_append]
      rintro (h | h)
      · exact hdis d' (by simp [hd']) h
      · simp only [List.map_cons, List.map_nil, List.mem_singleton] at h
        have hnotin : d ∉ rest.map Prod.fst := by
          simp only [List.map_cons] at hnd
          exact (List.nodup_cons.mp hnd).1
        rw [h] at hd'
        exact hnotin hd'
    case nd =>
      simp only [List.map_cons] at hnd
      exact (List.nodup_cons.mp hnd).2
    simp [List.append_assoc]

theorem loadPos_outer : ∀ (ps : List (String × PosInner)) (acc : PosIndex),
    ((acc ++ ps).map Prod.fst).Nodup →
    (∀ e ∈ ps, (e.2.map Prod.fst).Nodup ∧ e.2 ≠ []) →
    (ps.map (fun pr => (pr.1, pr.2.map (fun e => (pyStrNat e.1, e.2))))).foldl
        (fun p pr => pr.2.foldl (fun p2 e => posAssign p2 pr.1 (pyIntStr e.1) e.2) p) acc
      = acc ++ ps := by
  intro ps
  induction ps with
  | nil => intro acc _ _; simp
  | cons e rest ih =>
    intro acc hnd hwf
    obtain ⟨t, m⟩ := e
    obtain ⟨hmnd, hmne⟩ := hwf (t, m) (by simp)
    have htacc : t ∉ acc.map Prod.fst := by
      rw [List.map_append] at hnd
      obtain ⟨h1, h2, hdisj⟩ := List.nodup_append.mp hnd
      intro hh
      exact hdisj hh (by simp)
    obtain ⟨d0, l0, ms, rfl⟩ : ∃ d0 l0 ms, m = (d0, l0) :: ms := by
      cases m with
      | nil => exact absurd rfl hmne
      | cons e0 ms => exact ⟨e0.1, e0.2, ms, rfl⟩
    simp only [List.map_cons, List.foldl_cons, pyIntStr_pyStrNat]
    rw [posAssign_notMem acc t d0 l0 htacc,
      loadPos_inner ms acc t [(d0, l0)] htacc ?dis ?nd, List.singleton_append]
    case dis =>
      intro d' hd'
      simp only [List.map_cons, List.map_nil, List.mem_singleton]
      intro hh
      subst hh
      have : d' ∉ ms.map Prod.fst := by
        simp only [List.map_cons] at hmnd
        exact (List.nodup_cons.mp hmnd).1
      exact this hd'
    case nd =>
      simp only [List.map_cons] at hmnd
      exact (List.nodup_cons.mp hmnd).2
    rw [ih (acc ++ [(t, (d0, l0) :: ms)]) ?nd2 ?wf2]
    case nd2 =>
      have : (acc ++ [(t, (d0, l0) :: ms)]) ++ rest = acc ++ ((t, (d0, l0) :: ms) :: rest) := by
        simp
      rw [this]
      exact hnd
    case wf2 =>
      intro e2 he2
      exact hwf e2 (List.mem_cons_of_mem _ he2)
    simp

/-- Claim C5, amended: save/load round-trips the logical index state — document
map, posting lists and position lists, with string doc_id keys converted back
to ints — independent of the metadata (timestamp) and docs-folder path,
PROVIDED the positional index is a well-formed dict image (distinct term keys,
distinct doc keys) with no empty per-term map: a term whose positional entry
maps no document is dropped by the load loop. -/
theorem c5_theorem (folder now : String) (st : IRState)
    (hnd : (st.positional.map Prod.fst).Nodup)
    (hwf : ∀ e ∈ st.positional, (e.2.map Prod.fst).Nodup ∧ e.2 ≠ []) :
    loadIndexes (saveIndexes folder now st) = st := by
  obtain ⟨dm, inv, pos⟩ := st
  simp only [loadIndexes, saveIndexes, loadPositional, IRState.mk.injEq]
  refine ⟨docMap_roundTrip folder dm, inv_roundTrip inv, ?_⟩
  have h := loadPos_outer pos [] (by simpa using hnd) (by simpa using hwf)
  simpa using h

theorem c5_witness :
    (([("x", [(0, [1, 3]), (2, [0])]), ("y", [(2, [2])])] : PosIndex).map Prod.fst).Nodup ∧
    loadIndexes (saveIndexes "Abstracts" "2024-01-01"
      (⟨[(0, "a.txt"), (2, "c.txt")], [("x", [0, 2]), ("y", [2])],
        [("x", [(0, [1, 3]), (2, [0])]), ("y", [(2, [2])])]⟩ : IRState))
      = (⟨[(0, "a.txt"), (2, "c.txt")], [("x", [0, 2]), ("y", [2])],
        [("x", [(0, [1, 3]), (2, [0])]), ("y", [(2, [2])])]⟩ : IRState) :=
  ⟨by decide,
    c5_theorem "Abstracts" "2024-01-01"
      (⟨[(0, "a.txt"), (2, "c.txt")], [("x", [0, 2]), ("y", [2])],
        [("x", [(0, [1, 3]), (2, [0])]), ("y", [(2, [2])])]⟩ : IRState)
      (by decide) (by decide)⟩

theorem c5_counterexample :
    loadIndexes (saveIndexes "f" "t0" (⟨[], [], [("t", [])]⟩ : IRState))
      ≠ (⟨[], [], [("t", [])]⟩ : IRState) := by
  decide
